import Mathlib

/-!
Verification of the C-Index core (`src/spectro_coherence/cindex.py`).

Shallow embedding conventions:
* Real numbers model the numeric values with exact real semantics.
* A flux entry is `Option ℝ`: `some x` is a finite value, `none` is a
  non-finite entry (NaN or ±inf).  The code only ever tests entries for
  finiteness (`np.isfinite`) and removes non-finite entries before any
  arithmetic, so this distinction is sufficient.
* `np.corrcoef` returning NaN (zero variance makes the ratio 0/0) is
  modelled by `Option ℝ`: `none` is the NaN result, matching the
  `np.isfinite(autocorr)` test in the source.
* `c_index_statistics` can raise (`np.min`/`np.max` of an empty array raise
  `ValueError`), so it is embedded as returning `Option StatsRecord`,
  `none` being the raising path.
* `coherence_quality_score` only compares its two float arguments against
  rational constants, so it is embedded over `Option ℚ` where `none`
  models a NaN input (every comparison against NaN is false in Python).
-/

namespace SpectroCoherence

/-- `segment[np.isfinite(segment)]`: the finite entries, in order. -/
def finiteVals (xs : List (Option ℝ)) : List ℝ := xs.filterMap id

/-- `np.sum(np.isfinite(segment))`: how many entries are finite. -/
def countFinite (xs : List (Option ℝ)) : ℕ := (finiteVals xs).length

/-- `np.mean`: arithmetic mean (0 on the empty list, where numpy gives NaN;
the scan only takes means of non-empty lists). -/
noncomputable def listMean (xs : List ℝ) : ℝ := xs.sum / (xs.length : ℝ)

/-- `np.std` squared: population variance, mean squared deviation. -/
noncomputable def listVar (xs : List ℝ) : ℝ :=
  ((xs.map (fun x => (x - listMean xs) ^ 2)).sum) / (xs.length : ℝ)

/-- `np.std`: population standard deviation. -/
noncomputable def listStd (xs : List ℝ) : ℝ := Real.sqrt (listVar xs)

/-- `np.diff`: successive differences `x[i+1] - x[i]`. -/
def succDiffs (xs : List ℝ) : List ℝ := (xs.zip xs.tail).map (fun p => p.2 - p.1)

/-- `np.corrcoef(xs, ys)[0, 1]`: Pearson correlation coefficient.
`none` models the NaN numpy produces when a zero variance makes the
normalisation 0/0. -/
noncomputable def pearson (xs ys : List ℝ) : Option ℝ :=
  let mx := listMean xs
  let my := listMean ys
  let sxx := (xs.map (fun x => (x - mx) ^ 2)).sum
  let syy := (ys.map (fun y => (y - my) ^ 2)).sum
  let sxy := ((xs.zip ys).map (fun p => (p.1 - mx) * (p.2 - my))).sum
  if Real.sqrt (sxx * syy) = 0 then none else some (sxy / Real.sqrt (sxx * syy))

/-- `smoothness = 1.0 / (1.0 + np.mean(gradient) / (np.std(segment) + 1e-10))`
with `gradient = np.abs(np.diff(segment))`. -/
noncomputable def smoothnessOf (segment : List ℝ) : ℝ :=
  1 / (1 + listMean ((succDiffs segment).map (fun d => |d|)) / (listStd segment + 1e-10))

/-- `stability`: inverse coefficient of variation, 0.5 when the mean is
within `1e-10` of zero. -/
noncomputable def stabilityOf (segment : List ℝ) : ℝ :=
  if |listMean segment| > 1e-10 then 1 / (1 + listStd segment / |listMean segment|)
  else 0.5

/-- `consistency`: rescaled lag-1 autocorrelation, 0.5 when the segment has
at most one sample or the correlation is NaN (`np.isfinite` test). -/
noncomputable def consistencyOf (segment : List ℝ) : ℝ :=
  if 1 < segment.length then
    match pearson segment.dropLast segment.tail with
    | some autocorr => (autocorr + 1) / 2
    | none => 0.5
  else 0.5

/-- Body of the scan loop of `calculate_c_index` after NaN filtering:
smoothness, stability and consistency of one window, equally weighted. -/
noncomputable def cIndexOfSegment (segment : List ℝ) : ℝ :=
  (smoothnessOf segment + stabilityOf segment + consistencyOf segment) / 3

/-- Python `range(0, stop, step)` for `step ≥ 1` (empty when `stop = 0`,
which also covers Python's empty range on a negative stop). -/
def pyRange (stop step : ℕ) : List ℕ :=
  (List.range ((stop + step - 1) / step)).map (fun k => k * step)

/-- The offsets visited by the loop `for i in range(0, n - window, step)`. -/
def visitedOffsets (n window step : ℕ) : List ℕ := pyRange (n - window) step

/-- The two `continue` guards of the scan loop: the window `data[i:i+window]`
must have at least `window * min_valid_fraction` finite entries, and at
least 10 entries must remain after filtering. -/
def acceptsWindow (data : List (Option ℝ)) (window : ℕ) (min_valid_fraction : ℚ)
    (i : ℕ) : Prop :=
  ¬((countFinite ((data.drop i).take window) : ℚ) < (window : ℚ) * min_valid_fraction) ∧
  ¬((finiteVals ((data.drop i).take window)).length < 10)

instance acceptsWindowDecidable (data : List (Option ℝ)) (window : ℕ)
    (min_valid_fraction : ℚ) (i : ℕ) :
    Decidable (acceptsWindow data window min_valid_fraction i) :=
  inferInstanceAs (Decidable
    (¬((countFinite ((data.drop i).take window) : ℚ) < (window : ℚ) * min_valid_fraction) ∧
     ¬((finiteVals ((data.drop i).take window)).length < 10)))

/-- The visited offsets that pass both validity guards, in scan order. -/
def acceptedOffsets (data : List (Option ℝ)) (window step : ℕ)
    (min_valid_fraction : ℚ) : List ℕ :=
  (visitedOffsets data.length window step).filter
    (fun i => decide (acceptsWindow data window min_valid_fraction i))

/-- `calculate_c_index`: sliding-window scan, returning the pair
(positions, c_indices) accumulated by the loop. -/
noncomputable def calculate_c_index (data : List (Option ℝ)) (window step : ℕ)
    (min_valid_fraction : ℚ) : List ℝ × List ℝ :=
  let accepted := acceptedOffsets data window step min_valid_fraction
  (accepted.map (fun (i : ℕ) => (i : ℝ) + (window : ℝ) / 2),
   accepted.map (fun i => cIndexOfSegment (finiteVals ((data.drop i).take window))))

/-- The dictionary returned by `c_index_statistics`. -/
structure StatsRecord where
  mean : ℝ
  std : ℝ
  min : ℝ
  max : ℝ
  cv : ℝ
  anomaly_threshold : ℝ
  n_values : ℕ

/-- `c_index_statistics`.  On an empty array `np.min`/`np.max` raise
`ValueError` (numpy reduction without identity), so the empty case is the
raising path, embedded as `none`. -/
noncomputable def c_index_statistics : List ℝ → Option StatsRecord
  | [] => none
  | x :: xs =>
    some { mean := listMean (x :: xs)
           std := listStd (x :: xs)
           min := xs.foldl Min.min x
           max := xs.foldl Max.max x
           cv := if listMean (x :: xs) > 0 then listStd (x :: xs) / listMean (x :: xs) else 0
           anomaly_threshold := listMean (x :: xs) - 2 * listStd (x :: xs)
           n_values := (x :: xs).length }

/-- `detect_anomalies`: boolean-mask selection of the samples strictly below
`mean - threshold_sigma * std`. -/
noncomputable def detect_anomalies (positions c_indices : List ℝ)
    (threshold_sigma : ℝ) : List ℝ × List ℝ :=
  let threshold := listMean c_indices - threshold_sigma * listStd c_indices
  let kept := (positions.zip c_indices).filter (fun p => decide (p.2 < threshold))
  (kept.map Prod.fst, kept.map Prod.snd)

/-- A Python float compared with `>`: false when the left side is NaN. -/
def floatGt (x : Option ℚ) (c : ℚ) : Bool :=
  match x with
  | some v => decide (c < v)
  | none => false

/-- A Python float compared with `<`: false when the left side is NaN. -/
def floatLt (x : Option ℚ) (c : ℚ) : Bool :=
  match x with
  | some v => decide (v < c)
  | none => false

/-- `coherence_quality_score`: ordered threshold rules on (mean, cv). -/
def coherence_quality_score (mean_c cv : Option ℚ) : String :=
  if floatGt mean_c 0.85 && floatLt cv 0.05 then "Excellent"
  else if floatGt mean_c 0.80 && floatLt cv 0.10 then "Good"
  else if floatGt mean_c 0.70 && floatLt cv 0.15 then "Fair"
  else "Poor"

/-! ### Helper lemmas -/

lemma lt_ceilDiv_iff {s : ℕ} (hs : 0 < s) (k stop : ℕ) :
    k < (stop + s - 1) / s ↔ k * s < stop := by
  rw [Nat.lt_iff_add_one_le, Nat.le_div_iff_mul_le hs,
    (by ring : (k + 1) * s = k * s + s)]
  generalize k * s = m
  omega

lemma mem_pyRange {stop s i : ℕ} (hs : 0 < s) :
    i ∈ pyRange stop s ↔ (∃ k, i = k * s) ∧ i < stop := by
  unfold pyRange
  simp only [List.mem_map, List.mem_range]
  constructor
  · rintro ⟨k, hk, rfl⟩
    exact ⟨⟨k, rfl⟩, (lt_ceilDiv_iff hs k stop).mp hk⟩
  · rintro ⟨⟨k, rfl⟩, hlt⟩
    exact ⟨k, (lt_ceilDiv_iff hs k stop).mpr hlt, rfl⟩

lemma mem_visitedOffsets {n w s i : ℕ} (hs : 0 < s) :
    i ∈ visitedOffsets n w s ↔ (∃ k, i = k * s) ∧ i + w < n := by
  rw [visitedOffsets, mem_pyRange hs]
  have h : i < n - w ↔ i + w < n := by omega
  rw [h]

lemma list_sum_const {c : ℝ} {xs : List ℝ} (h : ∀ x ∈ xs, x = c) :
    xs.sum = (xs.length : ℝ) * c := by
  induction xs with
  | nil => simp
  | cons a t ih =>
    have ha : a = c := h a (List.mem_cons_self a t)
    have ht := ih (fun x hx => h x (List.mem_cons_of_mem a hx))
    rw [List.sum_cons, ht, ha, List.length_cons]
    push_cast
    ring

lemma listMean_const {xs : List ℝ} {c : ℝ} (hne : xs ≠ []) (h : ∀ x ∈ xs, x = c) :
    listMean xs = c := by
  have hlen : (0 : ℝ) < (xs.length : ℝ) := by
    exact_mod_cast List.length_pos.mpr hne
  rw [listMean, list_sum_const h]
  exact mul_div_cancel_left₀ c hlen.ne'

lemma listMean_zero {xs : List ℝ} (h : ∀ x ∈ xs, x = 0) : listMean xs = 0 := by
  rw [listMean, List.sum_eq_zero h, zero_div]

lemma listVar_const {xs : List ℝ} {c : ℝ} (h : ∀ x ∈ xs, x = c) :
    listVar xs = 0 := by
  rcases eq_or_ne xs [] with rfl | hne
  · simp [listVar]
  · have hm := listMean_const hne h
    rw [listVar]
    have hz : ∀ y ∈ xs.map (fun x => (x - listMean xs) ^ 2), y = 0 := by
      intro y hy
      rcases List.mem_map.mp hy with ⟨x, hx, rfl⟩
      rw [h x hx, hm, sub_self]
      ring
    rw [List.sum_eq_zero hz, zero_div]

lemma listStd_const {xs : List ℝ} {c : ℝ} (h : ∀ x ∈ xs, x = c) :
    listStd xs = 0 := by
  rw [listStd, listVar_const h, Real.sqrt_zero]

lemma succDiffs_const {xs : List ℝ} {c : ℝ} (h : ∀ x ∈ xs, x = c) :
    ∀ d ∈ succDiffs xs, d = 0 := by
  intro d hd
  rcases List.mem_map.mp hd with ⟨p, hp, rfl⟩
  have h1 : p.1 ∈ xs := (List.of_mem_zip hp).1
  have h2 : p.2 ∈ xs := List.mem_of_mem_tail (List.of_mem_zip hp).2
  rw [h p.1 h1, h p.2 h2, sub_self]

lemma pearson_const_left {xs ys : List ℝ} {c : ℝ} (hne : xs ≠ [])
    (h : ∀ x ∈ xs, x = c) : pearson xs ys = none := by
  have hm := listMean_const hne h
  have hsxx : (xs.map (fun x => (x - listMean xs) ^ 2)).sum = 0 := by
    apply List.sum_eq_zero
    intro y hy
    rcases List.mem_map.mp hy with ⟨x, hx, rfl⟩
    rw [h x hx, hm, sub_self]
    ring
  simp [pearson, hsxx, Real.sqrt_zero]

lemma finiteVals_replicate (k : ℕ) (c : ℝ) :
    finiteVals (List.replicate k (some c)) = List.replicate k c := by
  induction k with
  | zero => rfl
  | succ n ih =>
    rw [List.replicate_succ, List.replicate_succ]
    rw [finiteVals] at ih ⊢
    rw [List.filterMap_cons]
    simp only [id]
    rw [ih]

lemma slice_replicate {m w i : ℕ} (c : Option ℝ) (hiw : i + w ≤ m) :
    ((List.replicate m c).drop i).take w = List.replicate w c := by
  rw [List.drop_replicate, List.take_replicate]
  congr 1
  omega

lemma smoothnessOf_const {xs : List ℝ} {c : ℝ} (h : ∀ x ∈ xs, x = c) :
    smoothnessOf xs = 1 := by
  have hgrad : listMean ((succDiffs xs).map (fun d => |d|)) = 0 := by
    apply listMean_zero
    intro y hy
    rcases List.mem_map.mp hy with ⟨d, hd, rfl⟩
    rw [succDiffs_const h d hd, abs_zero]
  rw [smoothnessOf, hgrad, zero_div, add_zero, one_div_one]

lemma stabilityOf_const {xs : List ℝ} {c : ℝ} (hne : xs ≠ []) (h : ∀ x ∈ xs, x = c) :
    stabilityOf xs = if |c| > 1e-10 then 1 else 0.5 := by
  rw [stabilityOf, listMean_const hne h, listStd_const h]
  by_cases hc : |c| > 1e-10
  · rw [if_pos hc, if_pos hc, zero_div, add_zero, one_div_one]
  · rw [if_neg hc, if_neg hc]

lemma consistencyOf_const {xs : List ℝ} {c : ℝ} (hlen : 2 ≤ xs.length)
    (h : ∀ x ∈ xs, x = c) : consistencyOf xs = 0.5 := by
  have hdl : xs.dropLast ≠ [] := by
    intro hnil
    have hl := congrArg List.length hnil
    rw [List.length_dropLast, List.length_nil] at hl
    omega
  have hp : pearson xs.dropLast xs.tail = none :=
    pearson_const_left hdl (fun x hx => h x (List.dropLast_subset xs hx))
  rw [consistencyOf, if_pos (by omega : 1 < xs.length), hp]

lemma cIndexOfSegment_const {xs : List ℝ} {c : ℝ} (hlen : 2 ≤ xs.length)
    (h : ∀ x ∈ xs, x = c) :
    cIndexOfSegment xs = if |c| > 1e-10 then 5 / 6 else 2 / 3 := by
  have hne : xs ≠ [] := by
    intro hnil
    rw [hnil] at hlen
    simp at hlen
  rw [cIndexOfSegment, smoothnessOf_const h, stabilityOf_const hne h,
    consistencyOf_const hlen h]
  by_cases hc : |c| > 1e-10
  · rw [if_pos hc, if_pos hc]
    norm_num
  · rw [if_neg hc, if_neg hc]
    norm_num

/-! ### Bounds on the three components -/

lemma listStd_nonneg (xs : List ℝ) : 0 ≤ listStd xs := Real.sqrt_nonneg _

lemma listMean_nonneg {xs : List ℝ} (h : ∀ x ∈ xs, 0 ≤ x) : 0 ≤ listMean xs :=
  div_nonneg (List.sum_nonneg h) (Nat.cast_nonneg _)

lemma one_div_one_add_bounds {x : ℝ} (hx : 0 ≤ x) :
    0 ≤ 1 / (1 + x) ∧ 1 / (1 + x) ≤ 1 := by
  have h1 : (0 : ℝ) < 1 + x := by linarith
  constructor
  · positivity
  · rw [div_le_one h1]
    linarith

lemma smoothnessOf_bounds (segment : List ℝ) :
    0 ≤ smoothnessOf segment ∧ smoothnessOf segment ≤ 1 := by
  rw [smoothnessOf]
  apply one_div_one_add_bounds
  apply div_nonneg
  · apply listMean_nonneg
    intro y hy
    rcases List.mem_map.mp hy with ⟨d, _, rfl⟩
    exact abs_nonneg d
  · have := listStd_nonneg segment
    norm_num
    linarith

lemma stabilityOf_bounds (segment : List ℝ) :
    0 ≤ stabilityOf segment ∧ stabilityOf segment ≤ 1 := by
  rw [stabilityOf]
  by_cases hc : |listMean segment| > 1e-10
  · rw [if_pos hc]
    apply one_div_one_add_bounds
    apply div_nonneg (listStd_nonneg segment)
    exact abs_nonneg _
  · rw [if_neg hc]
    norm_num

/-! ### Cauchy-Schwarz for lists and the Pearson bound -/

lemma list_sum_map_eq_finset_sum {α : Type} (f : α → ℝ) (l : List α) (d : α) :
    (l.map f).sum = ∑ i ∈ Finset.range l.length, f (l.getD i d) := by
  induction l with
  | nil => simp
  | cons a t ih =>
    rw [List.map_cons, List.sum_cons, List.length_cons, Finset.sum_range_succ']
    simp only [List.getD_cons_succ, List.getD_cons_zero]
    rw [← ih, add_comm]

lemma list_cauchy_schwarz (l : List (ℝ × ℝ)) :
    ((l.map (fun p => p.1 * p.2)).sum) ^ 2 ≤
      ((l.map (fun p => p.1 ^ 2)).sum) * ((l.map (fun p => p.2 ^ 2)).sum) := by
  rw [list_sum_map_eq_finset_sum _ l (0, 0), list_sum_map_eq_finset_sum _ l (0, 0),
    list_sum_map_eq_finset_sum _ l (0, 0)]
  exact Finset.sum_mul_sq_le_sq_mul_sq _ _ _

lemma sum_map_fst_zip_le {β : Type} (g : ℝ → ℝ) (hg : ∀ x, 0 ≤ g x) :
    ∀ (xs : List ℝ) (ys : List β),
      ((xs.zip ys).map (fun p => g p.1)).sum ≤ (xs.map g).sum := by
  intro xs
  induction xs with
  | nil =>
    intro ys
    simp
  | cons x xt ih =>
    intro ys
    cases ys with
    | nil =>
      simp only [List.zip_nil_right, List.map_nil, List.sum_nil, List.map_cons,
        List.sum_cons]
      have ht : 0 ≤ (xt.map g).sum := by
        apply List.sum_nonneg
        intro y hy
        rcases List.mem_map.mp hy with ⟨z, _, rfl⟩
        exact hg z
      have := hg x
      linarith
    | cons y yt =>
      simp only [List.zip_cons_cons, List.map_cons, List.sum_cons]
      exact add_le_add_left (ih yt) _

lemma sum_map_snd_zip_le {β : Type} (g : ℝ → ℝ) (hg : ∀ x, 0 ≤ g x) :
    ∀ (xs : List β) (ys : List ℝ),
      ((xs.zip ys).map (fun p => g p.2)).sum ≤ (ys.map g).sum := by
  intro xs
  induction xs with
  | nil =>
    intro ys
    simp only [List.zip_nil_left, List.map_nil, List.sum_nil]
    apply List.sum_nonneg
    intro y hy
    rcases List.mem_map.mp hy with ⟨z, _, rfl⟩
    exact hg z
  | cons x xt ih =>
    intro ys
    cases ys with
    | nil => simp
    | cons y yt =>
      simp only [List.zip_cons_cons, List.map_cons, List.sum_cons]
      exact add_le_add_left (ih yt) _

lemma abs_cov_le_sqrt (xs ys : List ℝ) (mx my : ℝ) :
    |((xs.zip ys).map (fun p => (p.1 - mx) * (p.2 - my))).sum| ≤
      Real.sqrt (((xs.map (fun x => (x - mx) ^ 2)).sum) *
        ((ys.map (fun y => (y - my) ^ 2)).sum)) := by
  have cs := list_cauchy_schwarz ((xs.zip ys).map (fun p => (p.1 - mx, p.2 - my)))
  simp only [List.map_map, Function.comp] at cs
  have h1 : ((xs.zip ys).map (fun p => (p.1 - mx) ^ 2)).sum ≤
      (xs.map (fun x => (x - mx) ^ 2)).sum :=
    sum_map_fst_zip_le (fun x => (x - mx) ^ 2) (fun x => sq_nonneg _) xs ys
  have h2 : ((xs.zip ys).map (fun p => (p.2 - my) ^ 2)).sum ≤
      (ys.map (fun y => (y - my) ^ 2)).sum :=
    sum_map_snd_zip_le (fun y => (y - my) ^ 2) (fun y => sq_nonneg _) xs ys
  have hB : 0 ≤ ((xs.zip ys).map (fun p => (p.2 - my) ^ 2)).sum := by
    apply List.sum_nonneg
    intro y hy
    rcases List.mem_map.mp hy with ⟨p, _, rfl⟩
    exact sq_nonneg _
  have hxx : 0 ≤ (xs.map (fun x => (x - mx) ^ 2)).sum := by
    apply List.sum_nonneg
    intro y hy
    rcases List.mem_map.mp hy with ⟨x, _, rfl⟩
    exact sq_nonneg _
  have hstep : (((xs.zip ys).map (fun p => (p.1 - mx) * (p.2 - my))).sum) ^ 2 ≤
      ((xs.map (fun x => (x - mx) ^ 2)).sum) * ((ys.map (fun y => (y - my) ^ 2)).sum) :=
    le_trans cs (mul_le_mul h1 h2 hB hxx)
  calc |((xs.zip ys).map (fun p => (p.1 - mx) * (p.2 - my))).sum|
      = Real.sqrt ((((xs.zip ys).map (fun p => (p.1 - mx) * (p.2 - my))).sum) ^ 2) :=
        (Real.sqrt_sq_eq_abs _).symm
    _ ≤ _ := Real.sqrt_le_sqrt hstep

lemma pearson_bound {xs ys : List ℝ} {r : ℝ} (h : pearson xs ys = some r) :
    |r| ≤ 1 := by
  simp only [pearson] at h
  split at h
  · exact absurd h (by simp)
  · rename_i h0
    obtain rfl := Option.some.inj h
    have hD : 0 < Real.sqrt (((xs.map (fun x => (x - listMean xs) ^ 2)).sum) *
        ((ys.map (fun y => (y - listMean ys) ^ 2)).sum)) :=
      lt_of_le_of_ne (Real.sqrt_nonneg _) (Ne.symm h0)
    rw [abs_div, abs_of_nonneg (Real.sqrt_nonneg _), div_le_one hD]
    exact abs_cov_le_sqrt xs ys (listMean xs) (listMean ys)

lemma consistencyOf_bounds (segment : List ℝ) :
    0 ≤ consistencyOf segment ∧ consistencyOf segment ≤ 1 := by
  rw [consistencyOf]
  by_cases hl : 1 < segment.length
  · rw [if_pos hl]
    cases hp : pearson segment.dropLast segment.tail with
    | none => norm_num
    | some r =>
      have hb := abs_le.mp (pearson_bound hp)
      constructor
      · linarith [hb.1]
      · linarith [hb.2]
  · rw [if_neg hl]
    norm_num

lemma cIndexOfSegment_bounds (segment : List ℝ) :
    0 ≤ cIndexOfSegment segment ∧ cIndexOfSegment segment ≤ 1 := by
  have h1 := smoothnessOf_bounds segment
  have h2 := stabilityOf_bounds segment
  have h3 := consistencyOf_bounds segment
  rw [cIndexOfSegment]
  constructor
  · linarith [h1.1, h2.1, h3.1]
  · linarith [h1.2, h2.2, h3.2]

/-! ### Folded minimum / maximum -/

lemma foldl_min_le_init {α : Type} [LinearOrder α] :
    ∀ (l : List α) (a : α), l.foldl Min.min a ≤ a := by
  intro l
  induction l with
  | nil => intro a; exact le_refl a
  | cons x t ih =>
    intro a
    exact le_trans (ih (Min.min a x)) (min_le_left a x)

lemma foldl_min_le_mem {α : Type} [LinearOrder α] :
    ∀ (l : List α) (a y : α), y ∈ l → l.foldl Min.min a ≤ y := by
  intro l
  induction l with
  | nil => intro a y hy; exact absurd hy (List.not_mem_nil y)
  | cons x t ih =>
    intro a y hy
    rcases List.mem_cons.mp hy with rfl | hyt
    · exact le_trans (foldl_min_le_init t (Min.min a y)) (min_le_right a y)
    · exact ih (Min.min a x) y hyt

lemma foldl_min_mem {α : Type} [LinearOrder α] :
    ∀ (l : List α) (a : α), l.foldl Min.min a = a ∨ l.foldl Min.min a ∈ l := by
  intro l
  induction l with
  | nil => intro a; exact Or.inl rfl
  | cons x t ih =>
    intro a
    rcases ih (Min.min a x) with h | h
    · rcases min_choice a x with hax | hax
      · exact Or.inl (by rw [List.foldl_cons, h, hax])
      · exact Or.inr (by rw [List.foldl_cons, h, hax]; exact List.mem_cons_self x t)
    · exact Or.inr (List.mem_cons_of_mem x h)

lemma init_le_foldl_max {α : Type} [LinearOrder α] :
    ∀ (l : List α) (a : α), a ≤ l.foldl Max.max a := by
  intro l
  induction l with
  | nil => intro a; exact le_refl a
  | cons x t ih =>
    intro a
    exact le_trans (le_max_left a x) (ih (Max.max a x))

lemma mem_le_foldl_max {α : Type} [LinearOrder α] :
    ∀ (l : List α) (a y : α), y ∈ l → y ≤ l.foldl Max.max a := by
  intro l
  induction l with
  | nil => intro a y hy; exact absurd hy (List.not_mem_nil y)
  | cons x t ih =>
    intro a y hy
    rcases List.mem_cons.mp hy with rfl | hyt
    · exact le_trans (le_max_right a y) (init_le_foldl_max t (Max.max a y))
    · exact ih (Max.max a x) y hyt

lemma foldl_max_mem {α : Type} [LinearOrder α] :
    ∀ (l : List α) (a : α), l.foldl Max.max a = a ∨ l.foldl Max.max a ∈ l := by
  intro l
  induction l with
  | nil => intro a; exact Or.inl rfl
  | cons x t ih =>
    intro a
    rcases ih (Max.max a x) with h | h
    · rcases max_choice a x with hax | hax
      · exact Or.inl (by rw [List.foldl_cons, h, hax])
      · exact Or.inr (by rw [List.foldl_cons, h, hax]; exact List.mem_cons_self x t)
    · exact Or.inr (List.mem_cons_of_mem x h)

lemma zip_map_fst_snd {α β : Type} :
    ∀ l : List (α × β), (l.map Prod.fst).zip (l.map Prod.snd) = l := by
  intro l
  induction l with
  | nil => rfl
  | cons p t ih => simp [List.zip_cons_cons, ih]

/-! ### Evaluating the scan on constant data -/

lemma acceptsWindow_replicate {m w i : ℕ} {c : ℝ} {mvf : ℚ} (hiw : i + w ≤ m)
    (hcount : ¬((w : ℚ) < (w : ℚ) * mvf)) (hw : 10 ≤ w) :
    acceptsWindow (List.replicate m (some c)) w mvf i := by
  have hslice : ((List.replicate m (some c)).drop i).take w = List.replicate w (some c) :=
    slice_replicate (some c) hiw
  constructor
  · rw [hslice, countFinite, finiteVals_replicate, List.length_replicate]
    exact hcount
  · rw [hslice, finiteVals_replicate, List.length_replicate]
    omega

lemma acceptedOffsets_replicate {m w s : ℕ} {c : ℝ} {mvf : ℚ} (hs : 0 < s)
    (hcount : ¬((w : ℚ) < (w : ℚ) * mvf)) (hw : 10 ≤ w) :
    acceptedOffsets (List.replicate m (some c)) w s mvf = visitedOffsets m w s := by
  rw [acceptedOffsets, List.length_replicate]
  apply List.filter_eq_self.mpr
  intro i hi
  have hiw : i + w ≤ m := le_of_lt ((mem_visitedOffsets hs).mp hi).2
  exact decide_eq_true (acceptsWindow_replicate hiw hcount hw)

lemma calculate_replicate_one :
    calculate_c_index (List.replicate 13 (some (1:ℝ))) 12 1 (4/5) =
      ([6], [5 / 6]) := by
  have hacc : acceptedOffsets (List.replicate 13 (some (1:ℝ))) 12 1 (4/5) = [0] := by
    rw [acceptedOffsets_replicate (by norm_num) (by norm_num) (by norm_num)]
    decide
  have hslice : ((List.replicate 13 (some (1:ℝ))).drop 0).take 12 =
      List.replicate 12 (some 1) := slice_replicate (some 1) (by norm_num)
  have hseg : cIndexOfSegment (finiteVals (((List.replicate 13 (some (1:ℝ))).drop 0).take 12)) =
      5 / 6 := by
    rw [hslice, finiteVals_replicate,
      cIndexOfSegment_const (by simp) (fun x hx => List.eq_of_mem_replicate hx)]
    norm_num
  simp only [calculate_c_index, hacc, List.map_cons, List.map_nil, hseg]
  norm_num

lemma calculate_replicate_zero :
    calculate_c_index (List.replicate 13 (some (0:ℝ))) 12 1 (4/5) =
      ([6], [2 / 3]) := by
  have hacc : acceptedOffsets (List.replicate 13 (some (0:ℝ))) 12 1 (4/5) = [0] := by
    rw [acceptedOffsets_replicate (by norm_num) (by norm_num) (by norm_num)]
    decide
  have hslice : ((List.replicate 13 (some (0:ℝ))).drop 0).take 12 =
      List.replicate 12 (some 0) := slice_replicate (some 0) (by norm_num)
  have hseg : cIndexOfSegment (finiteVals (((List.replicate 13 (some (0:ℝ))).drop 0).take 12)) =
      2 / 3 := by
    rw [hslice, finiteVals_replicate,
      cIndexOfSegment_const (by simp) (fun x hx => List.eq_of_mem_replicate hx)]
    norm_num
  simp only [calculate_c_index, hacc, List.map_cons, List.map_nil, hseg]
  norm_num

lemma mem_c_indices {data : List (Option ℝ)} {w s : ℕ} {mvf : ℚ} {v : ℝ}
    (hv : v ∈ (calculate_c_index data w s mvf).2) :
    ∃ i ∈ acceptedOffsets data w s mvf,
      v = cIndexOfSegment (finiteVals ((data.drop i).take w)) := by
  have hv2 : v ∈ (acceptedOffsets data w s mvf).map
      (fun i => cIndexOfSegment (finiteVals ((data.drop i).take w))) := hv
  rcases List.mem_map.mp hv2 with ⟨i, hi, rfl⟩
  exact ⟨i, hi, rfl⟩

/-! ### Claim theorems -/

/-- C1 counterexample: with `length(data) = window = 12`, the offset `0`
satisfies `0 + window ≤ length(data)` but the loop visits no offset at all
and the scan of a perfectly valid constant window emits nothing. -/
theorem scan_boundary_window_missed :
    (0 + 12 ≤ 12) ∧ visitedOffsets 12 12 1 = [] ∧
    calculate_c_index (List.replicate 12 (some (1:ℝ))) 12 1 (4/5) = ([], []) :=
  ⟨by norm_num, by decide, rfl⟩

/-- C1 (amended): for `step ≥ 1` the scan visits exactly the offsets
`i = 0, step, 2·step, …` with `i + window < length(data)` (strict
inequality); in particular, when `length(data)` equals `window`, no offset
is visited. -/
theorem scan_offsets_strict (n w s : ℕ) (hs : 0 < s) :
    (∀ i, i ∈ visitedOffsets n w s ↔ (∃ k, i = k * s) ∧ i + w < n) ∧
    visitedOffsets w w s = [] := by
  refine ⟨fun i => mem_visitedOffsets hs, ?_⟩
  rw [visitedOffsets, Nat.sub_self, pyRange, Nat.div_eq_of_lt (by omega)]
  rfl

/-- C1 witness: offset 4 is visited for data length 20, window 12, step 4. -/
theorem scan_offsets_strict_witness : 4 ∈ visitedOffsets 20 12 4 :=
  ((scan_offsets_strict 20 12 4 (by norm_num)).1 4).mpr ⟨⟨1, rfl⟩, by norm_num⟩

/-- C2 counterexample: on an empty sequence `c_index_statistics` does not
return a record at all (the empty `np.min` reduction raises). -/
theorem empty_statistics_not_nan_record :
    ¬ ∃ r, c_index_statistics ([] : List ℝ) = some r := by
  rintro ⟨r, h⟩
  simp [c_index_statistics] at h

/-- C2 (amended): on an empty sequence `c_index_statistics` raises
(modelled: returns no record); on every non-empty sequence it returns a
record. -/
theorem empty_statistics_raises :
    c_index_statistics ([] : List ℝ) = none ∧
    ∀ (x : ℝ) (xs : List ℝ), ∃ r, c_index_statistics (x :: xs) = some r :=
  ⟨rfl, fun _ _ => ⟨_, rfl⟩⟩

/-- C2 witness: a singleton input produces a record. -/
theorem empty_statistics_raises_witness :
    ∃ r, c_index_statistics [(1:ℝ)] = some r :=
  empty_statistics_raises.2 1 []

/-- C3 counterexample: the constant-zero sequence of length 13 produces one
accepted window whose C-Index is 2/3, which is not greater than 0.8 (the
stability component falls back to 0.5 because `|mean| ≤ 1e-10`). -/
theorem constant_zero_not_above :
    (calculate_c_index (List.replicate 13 (some (0:ℝ))) 12 1 (4/5)).2 = [2 / 3] ∧
    ¬((2 / 3 : ℝ) > 0.8) :=
  ⟨by rw [calculate_replicate_zero], by norm_num⟩

/-- C3 (amended): for every constant input sequence whose value `c` has
`|c| > 1e-10` (the stability epsilon), every accepted window has C-Index
strictly greater than 0.8 (it equals 5/6). -/
theorem constant_scan_above_criterion (m w s : ℕ) (c : ℝ) (mvf : ℚ) (hs : 0 < s)
    (hc : |c| > 1e-10) :
    ∀ v ∈ (calculate_c_index (List.replicate m (some c)) w s mvf).2, 0.8 < v := by
  intro v hv
  rcases mem_c_indices hv with ⟨i, hi, rfl⟩
  rw [acceptedOffsets, List.length_replicate] at hi
  rcases List.mem_filter.mp hi with ⟨hvis, haccb⟩
  have hacc := of_decide_eq_true haccb
  have hiw : i + w < m := ((mem_visitedOffsets hs).mp hvis).2
  have hslice : ((List.replicate m (some c)).drop i).take w = List.replicate w (some c) :=
    slice_replicate (some c) (le_of_lt hiw)
  have hwlen : 10 ≤ w := by
    have h2 := hacc.2
    rw [hslice, finiteVals_replicate, List.length_replicate] at h2
    omega
  rw [hslice, finiteVals_replicate,
    cIndexOfSegment_const (by rw [List.length_replicate]; omega)
      (fun x hx => List.eq_of_mem_replicate hx), if_pos hc]
  norm_num

/-- C3 witness: the constant-one sequence of length 13 yields the single
accepted C-Index 5/6, which exceeds 0.8. -/
theorem constant_scan_above_criterion_witness :
    (5 / 6 : ℝ) ∈ (calculate_c_index (List.replicate 13 (some (1:ℝ))) 12 1 (4/5)).2 ∧
    (0.8 : ℝ) < 5 / 6 := by
  have hmem : (5 / 6 : ℝ) ∈ (calculate_c_index (List.replicate 13 (some (1:ℝ))) 12 1 (4/5)).2 := by
    rw [calculate_replicate_one]
    exact List.mem_singleton.mpr rfl
  exact ⟨hmem, constant_scan_above_criterion 13 12 1 1 (4/5) (by norm_num) (by norm_num)
    (5 / 6) hmem⟩

/-- C4: every value in the returned `c_indices` lies in `[0, 1]` inclusive
(each of smoothness, stability and consistency is in `[0, 1]`, so their
arithmetic mean is too). -/
theorem c_indices_unit_interval (data : List (Option ℝ)) (w s : ℕ) (mvf : ℚ)
    (v : ℝ) (hv : v ∈ (calculate_c_index data w s mvf).2) :
    0 ≤ v ∧ v ≤ 1 := by
  rcases mem_c_indices hv with ⟨i, _, rfl⟩
  exact cIndexOfSegment_bounds _

/-- C4 witness: the value 5/6 emitted for the constant-one sequence is
within `[0, 1]`. -/
theorem c_indices_unit_interval_witness : (0:ℝ) ≤ 5 / 6 ∧ (5 / 6:ℝ) ≤ 1 :=
  c_indices_unit_interval (List.replicate 13 (some 1)) 12 1 (4/5) (5 / 6)
    (by rw [calculate_replicate_one]; exact List.mem_singleton.mpr rfl)

/-- C5: for `step ≥ 1` the returned positions are strictly increasing, and
the position emitted for the accepted window at offset `i` is exactly
`i + window / 2` (real-valued midpoint). -/
theorem positions_midpoints_increasing (data : List (Option ℝ)) (w s : ℕ)
    (mvf : ℚ) (hs : 0 < s) :
    (calculate_c_index data w s mvf).1.Pairwise (· < ·) ∧
    (calculate_c_index data w s mvf).1 =
      (acceptedOffsets data w s mvf).map (fun (i : ℕ) => (i : ℝ) + (w : ℝ) / 2) := by
  constructor
  · have hvis : (visitedOffsets data.length w s).Pairwise (· < ·) := by
      rw [visitedOffsets, pyRange, List.pairwise_map]
      apply List.Pairwise.imp ?_ (List.pairwise_lt_range _)
      intro a b hab
      exact mul_lt_mul_of_pos_right hab hs
    have haccp : (acceptedOffsets data w s mvf).Pairwise (· < ·) :=
      List.Pairwise.filter _ hvis
    have hmap : ((acceptedOffsets data w s mvf).map
        (fun (i : ℕ) => (i : ℝ) + (w : ℝ) / 2)).Pairwise (· < ·) := by
      refine List.Pairwise.map _ ?_ haccp
      intro a b hab
      have hab2 : (a : ℝ) < (b : ℝ) := Nat.cast_lt.mpr hab
      linarith
    exact hmap
  · rfl

/-- C5 witness: instantiated on the constant-one sequence of length 13. -/
theorem positions_midpoints_increasing_witness :
    (calculate_c_index (List.replicate 13 (some (1:ℝ))) 12 1 (4/5)).1.Pairwise (· < ·) ∧
    (calculate_c_index (List.replicate 13 (some (1:ℝ))) 12 1 (4/5)).1 =
      (acceptedOffsets (List.replicate 13 (some (1:ℝ))) 12 1 (4/5)).map
        (fun (i : ℕ) => (i : ℝ) + (12 : ℝ) / 2) :=
  positions_midpoints_increasing (List.replicate 13 (some 1)) 12 1 (4/5) (by norm_num)

/-- C6: on a non-empty sequence `c_index_statistics` returns the record
with arithmetic mean, population standard deviation, minimum, maximum,
`cv = std/mean` when `mean > 0` and 0 otherwise, `anomaly_threshold =
mean - 2·std`, and `n_values` the length. -/
theorem c_index_statistics_fields (x : ℝ) (xs : List ℝ) :
    ∃ r, c_index_statistics (x :: xs) = some r ∧
      r.mean = (x :: xs).sum / ((x :: xs).length : ℝ) ∧
      r.std = Real.sqrt ((((x :: xs).map (fun v => (v - r.mean) ^ 2)).sum) /
        ((x :: xs).length : ℝ)) ∧
      (r.min ∈ x :: xs ∧ ∀ y ∈ x :: xs, r.min ≤ y) ∧
      (r.max ∈ x :: xs ∧ ∀ y ∈ x :: xs, y ≤ r.max) ∧
      (0 < r.mean → r.cv = r.std / r.mean) ∧
      (r.mean ≤ 0 → r.cv = 0) ∧
      r.anomaly_threshold = r.mean - 2 * r.std ∧
      r.n_values = (x :: xs).length := by
  refine ⟨_, rfl, rfl, rfl, ⟨?_, ?_⟩, ⟨?_, ?_⟩, ?_, ?_, rfl, rfl⟩
  · rcases foldl_min_mem xs x with h | h
    · rw [h]; exact List.mem_cons_self x xs
    · exact List.mem_cons_of_mem x h
  · intro y hy
    rcases List.mem_cons.mp hy with rfl | hyt
    · exact foldl_min_le_init xs y
    · exact foldl_min_le_mem xs x y hyt
  · rcases foldl_max_mem xs x with h | h
    · rw [h]; exact List.mem_cons_self x xs
    · exact List.mem_cons_of_mem x h
  · intro y hy
    rcases List.mem_cons.mp hy with rfl | hyt
    · exact init_le_foldl_max xs y
    · exact mem_le_foldl_max xs x y hyt
  · intro h
    exact if_pos h
  · intro h
    exact if_neg (not_lt.mpr h)

/-- C6 witness: a record is produced for `[1, 2]` with two samples. -/
theorem c_index_statistics_fields_witness :
    ∃ r, c_index_statistics [(1:ℝ), 2] = some r ∧ r.n_values = 2 := by
  obtain ⟨r, h1, _, _, _, _, _, _, _, h9⟩ := c_index_statistics_fields 1 [2]
  exact ⟨r, h1, h9⟩

/-- C7: `detect_anomalies` recomputes the threshold
`mean - threshold_sigma · std` from the input series itself and returns
exactly the samples strictly below it, in original order (the zipped
result is a filter, hence a sublist, of the zipped input). -/
theorem detect_anomalies_filter_spec (positions c_indices : List ℝ) (σ : ℝ)
    (hne : c_indices ≠ []) :
    ((detect_anomalies positions c_indices σ).1.zip
        (detect_anomalies positions c_indices σ).2)
      = (positions.zip c_indices).filter
          (fun p => decide (p.2 < listMean c_indices - σ * listStd c_indices)) ∧
    List.Sublist
      ((detect_anomalies positions c_indices σ).1.zip
        (detect_anomalies positions c_indices σ).2)
      (positions.zip c_indices) := by
  have h1 : ((detect_anomalies positions c_indices σ).1.zip
      (detect_anomalies positions c_indices σ).2)
      = (positions.zip c_indices).filter
          (fun p => decide (p.2 < listMean c_indices - σ * listStd c_indices)) :=
    zip_map_fst_snd ((positions.zip c_indices).filter
      (fun p => decide (p.2 < listMean c_indices - σ * listStd c_indices)))
  refine ⟨h1, ?_⟩
  rw [h1]
  exact List.filter_sublist _

/-- C7 witness: instantiated on positions `[1, 2]` and constant values
`[3, 3]` with `threshold_sigma = 2`. -/
theorem detect_anomalies_filter_spec_witness :
    ((detect_anomalies [(1:ℝ), 2] [3, 3] 2).1.zip
        (detect_anomalies [(1:ℝ), 2] [3, 3] 2).2)
      = (([(1:ℝ), 2]).zip [3, 3]).filter
          (fun p => decide (p.2 < listMean [3, 3] - 2 * listStd [3, 3])) ∧
    List.Sublist
      ((detect_anomalies [(1:ℝ), 2] [3, 3] 2).1.zip
        (detect_anomalies [(1:ℝ), 2] [3, 3] 2).2)
      (([(1:ℝ), 2]).zip [3, 3]) :=
  detect_anomalies_filter_spec [1, 2] [3, 3] 2 (by simp)

/-- C8 counterexample: a negative cv input does not fall through to Poor:
with mean 0.9 and cv −0.1 the score is Excellent. -/
theorem negative_cv_scores_excellent :
    coherence_quality_score (some (9/10)) (some (-1/10)) = "Excellent" ∧
    coherence_quality_score (some (9/10)) (some (-1/10)) ≠ "Poor" := by
  have h1 : floatGt (some (9/10 : ℚ)) (0.85 : ℚ) = true := decide_eq_true (by norm_num)
  have h2 : floatLt (some (-1/10 : ℚ)) (0.05 : ℚ) = true := decide_eq_true (by norm_num)
  rw [coherence_quality_score, h1, h2]
  exact ⟨rfl, by simp⟩

/-- C8 (amended): `coherence_quality_score` is total and follows the
first-matching ordered rules; the spec examples hold; NaN in either input
falls through to Poor, and a negative mean falls through to Poor (a
negative cv, however, satisfies every `cv <` test and does not). -/
theorem quality_score_rules :
    coherence_quality_score (some 0.90) (some 0.03) = "Excellent" ∧
    coherence_quality_score (some 0.85) (some 0.07) = "Good" ∧
    coherence_quality_score (some 0.75) (some 0.12) = "Fair" ∧
    coherence_quality_score (some 0.65) (some 0.20) = "Poor" ∧
    (∀ cv, coherence_quality_score none cv = "Poor") ∧
    (∀ m, coherence_quality_score m none = "Poor") ∧
    (∀ (mq : ℚ) (cv : Option ℚ), mq < 0 →
      coherence_quality_score (some mq) cv = "Poor") := by
  refine ⟨?_, ?_, ?_, ?_, fun cv => rfl, ?_, ?_⟩
  · have h1 : floatGt (some (0.90 : ℚ)) (0.85 : ℚ) = true := decide_eq_true (by norm_num)
    have h2 : floatLt (some (0.03 : ℚ)) (0.05 : ℚ) = true := decide_eq_true (by norm_num)
    rw [coherence_quality_score, h1, h2]
    rfl
  · have h1 : floatGt (some (0.85 : ℚ)) (0.85 : ℚ) = false := decide_eq_false (by norm_num)
    have h2 : floatGt (some (0.85 : ℚ)) (0.80 : ℚ) = true := decide_eq_true (by norm_num)
    have h3 : floatLt (some (0.07 : ℚ)) (0.10 : ℚ) = true := decide_eq_true (by norm_num)
    rw [coherence_quality_score, h1, h2, h3]
    rfl
  · have h1 : floatGt (some (0.75 : ℚ)) (0.85 : ℚ) = false := decide_eq_false (by norm_num)
    have h2 : floatGt (some (0.75 : ℚ)) (0.80 : ℚ) = false := decide_eq_false (by norm_num)
    have h3 : floatGt (some (0.75 : ℚ)) (0.70 : ℚ) = true := decide_eq_true (by norm_num)
    have h4 : floatLt (some (0.12 : ℚ)) (0.15 : ℚ) = true := decide_eq_true (by norm_num)
    rw [coherence_quality_score, h1, h2, h3, h4]
    rfl
  · have h1 : floatGt (some (0.65 : ℚ)) (0.85 : ℚ) = false := decide_eq_false (by norm_num)
    have h2 : floatGt (some (0.65 : ℚ)) (0.80 : ℚ) = false := decide_eq_false (by norm_num)
    have h3 : floatGt (some (0.65 : ℚ)) (0.70 : ℚ) = false := decide_eq_false (by norm_num)
    rw [coherence_quality_score, h1, h2, h3]
    rfl
  · intro m
    cases m with
    | none => rfl
    | some v => simp [coherence_quality_score, floatLt, Bool.and_false]
  · intro mq cv hneg
    have h1 : floatGt (some mq) (0.85 : ℚ) = false := decide_eq_false (by intro h; norm_num at h; linarith)
    have h2 : floatGt (some mq) (0.80 : ℚ) = false := decide_eq_false (by intro h; norm_num at h; linarith)
    have h3 : floatGt (some mq) (0.70 : ℚ) = false := decide_eq_false (by intro h; norm_num at h; linarith)
    rw [coherence_quality_score, h1, h2, h3]
    rfl

/-- C8 witness: a negative mean classifies as Poor. -/
theorem quality_score_rules_witness :
    coherence_quality_score (some (-1 : ℚ)) (some 0) = "Poor" :=
  quality_score_rules.2.2.2.2.2.2 (-1) (some 0) (by norm_num)

/-- C9: data shorter than the window yields an empty series (no error),
and all-non-finite data yields an empty series (every window is skipped by
the validity guards). -/
theorem degenerate_scan_empty (data : List (Option ℝ)) (w s : ℕ) (mvf : ℚ)
    (hs : 0 < s) :
    (data.length < w → calculate_c_index data w s mvf = ([], [])) ∧
    ((∀ x ∈ data, x = none) → calculate_c_index data w s mvf = ([], [])) := by
  constructor
  · intro hlen
    have hvis : visitedOffsets data.length w s = [] := by
      rw [visitedOffsets]
      have h0 : data.length - w = 0 := by omega
      rw [h0, pyRange, Nat.div_eq_of_lt (by omega)]
      rfl
    have hacc : acceptedOffsets data w s mvf = [] := by
      rw [acceptedOffsets, hvis, List.filter_nil]
    simp only [calculate_c_index, hacc, List.map_nil]
  · intro hnone
    have hreject : ∀ i, ¬ acceptsWindow data w mvf i := by
      rintro i ⟨_, h2⟩
      have hfin : finiteVals ((data.drop i).take w) = [] := by
        rw [finiteVals, List.filterMap_eq_nil]
        intro a ha
        have hmem : a ∈ data :=
          List.drop_subset i data (List.take_subset w (data.drop i) ha)
        rw [hnone a hmem]
        rfl
      rw [hfin] at h2
      exact h2 (by simp)
    have hacc : acceptedOffsets data w s mvf = [] := by
      rw [acceptedOffsets]
      apply List.filter_eq_nil.mpr
      intro i _
      simp only [decide_eq_true_eq]
      exact hreject i
    simp only [calculate_c_index, hacc, List.map_nil]

/-- C9 witness: a 5-entry sequence with window 12, and a 15-entry all-NaN
sequence, both produce the empty series. -/
theorem degenerate_scan_empty_witness :
    calculate_c_index (List.replicate 5 (none : Option ℝ)) 12 1 (4/5) = ([], []) ∧
    calculate_c_index (List.replicate 15 (none : Option ℝ)) 12 1 (4/5) = ([], []) := by
  constructor
  · exact (degenerate_scan_empty _ 12 1 (4/5) (by norm_num)).1
      (by rw [List.length_replicate]; omega)
  · exact (degenerate_scan_empty _ 12 1 (4/5) (by norm_num)).2
      (fun x hx => List.eq_of_mem_replicate hx)

/-- C10: on a non-empty series of all-equal C-Index values the standard
deviation is 0, the threshold equals the common value, and no value is
strictly below it: `detect_anomalies` returns empty outputs. -/
theorem constant_series_no_anomalies (ps vs : List ℝ) (c σ : ℝ)
    (hne : vs ≠ []) (hconst : ∀ v ∈ vs, v = c) (hσ : 0 ≤ σ) :
    detect_anomalies ps vs σ = ([], []) := by
  have hm := listMean_const hne hconst
  have hstd := listStd_const hconst
  have hfil : (ps.zip vs).filter
      (fun p => decide (p.2 < listMean vs - σ * listStd vs)) = [] := by
    apply List.filter_eq_nil.mpr
    intro p hp
    have hp2 : p.2 = c := hconst p.2 (List.of_mem_zip hp).2
    simp only [decide_eq_true_eq, hm, hstd, hp2, mul_zero, sub_zero]
    exact lt_irrefl c
  simp only [detect_anomalies, hfil, List.map_nil]

/-- C10 witness: the constant series `[5, 5]` yields no anomalies. -/
theorem constant_series_no_anomalies_witness :
    detect_anomalies [(1:ℝ), 2] [5, 5] 0 = ([], []) :=
  constant_series_no_anomalies [1, 2] [5, 5] 5 0 (by simp)
    (fun v hv => by
      rcases List.mem_cons.mp hv with h | h
      · exact h
      · simpa using h)
    (le_refl 0)

end SpectroCoherence
